import Mathlib

/-!
Verification of the TelegramGroup link-rotation scripts.

The development shallowly embeds the two Python source files:
`src/link_updater.py` (class `MarkdownLinkUpdater`: `_validate_config`,
`_run_git_command`, `_check_file_changes`, `_update_links`, `_commit_changes`,
`_push_to_remote`, `run`, `main`) and `src/markdown.py` (`replace_jiso_line`).

File contents are `List Char` (Python `str`); regex operations of the code use
only escaped, literal patterns, so `re.search` is substring occurrence and
`re.sub` is literal global replacement, both defined below.  Subprocess
invocations are modelled by their observable data (exit code, captured output),
and Python exceptions by an explicit `PyResult`.
-/

set_option maxRecDepth 100000

namespace TelegramGroup

/-- The literal URL template of `_update_links`: the regex
`https://t\.me/jiso\?start=a_` is, after unescaping, the literal string
`https://t.me/jiso?start=a_`; an identifier is appended in the slot. -/
def urlPrefix : List Char := "https://t.me/jiso?start=a_".data

/-- URL form of an identifier: the template populated with the identifier
(both the search pattern `pattern_i` and the replacement string of
`_update_links`). -/
def urlOf (ident : List Char) : List Char := urlPrefix ++ ident

/-- The template after its first character (used to decompose `urlOf` as a
cons). -/
def urlRest : List Char := "ttps://t.me/jiso?start=a_".data

/-- `re.search` with a literal (escaped) pattern, used as a boolean:
does `p` occur as a contiguous substring of `s`?  Also models Python's
`in` operator on strings (`'极搜JiSo' in line`). -/
def searchB (p : List Char) : List Char → Bool
  | [] => p.isEmpty
  | c :: cs => p.isPrefixOf (c :: cs) || searchB p cs

/-- `re.sub` with a literal pattern `p` and literal replacement `r`: replace
the non-overlapping occurrences of `p` left to right.  The fuel argument makes
the recursion structural; `subst` below instantiates it with the list length,
which is always sufficient.  (The patterns of the code are never empty; for an
empty `p` this model leaves `s` unchanged.) -/
def substAux (p r : List Char) : Nat → List Char → List Char
  | 0, s => s
  | _+1, [] => []
  | fuel+1, c :: cs =>
    if p.isPrefixOf (c :: cs) && !p.isEmpty then
      r ++ substAux p r fuel (cs.drop (p.length - 1))
    else
      c :: substAux p r fuel cs

/-- `re.sub(pattern, replacement, content)` for the literal patterns of the
code. -/
def subst (p r s : List Char) : List Char := substAux p r s.length s

/-- Outcome of `MarkdownLinkUpdater._update_links`: the code prints a distinct
message and returns `False` when both identifiers are present (`ambiguous`) or
neither is (`notFound`), and writes the substituted content and returns `True`
otherwise (`updated`). -/
inductive UpdateResult
  | ambiguous
  | updated (newContent : List Char)
  | notFound
deriving DecidableEq

/-- `MarkdownLinkUpdater._update_links` on the file content it read:
build both patterns, test which is present, and substitute accordingly. -/
def updateLinks (id1 id2 content : List Char) : UpdateResult :=
  let pattern1 := urlOf id1
  let pattern2 := urlOf id2
  let hasLink1 := searchB pattern1 content
  let hasLink2 := searchB pattern2 content
  if hasLink1 && hasLink2 then .ambiguous
  else if hasLink1 then .updated (subst pattern1 pattern2 content)
  else if hasLink2 then .updated (subst pattern2 pattern1 content)
  else .notFound

/-- The file content after one `_update_links` call: the file is rewritten only
in the `updated` branch. -/
def stepContent (id1 id2 content : List Char) : List Char :=
  match updateLinks id1 id2 content with
  | .updated c => c
  | _ => content

/-- The identifier pool `ids` of `replace_jiso_line` in `src/markdown.py`. -/
def jisoIds : List (List Char) :=
  ["7737195905".data, "7439567495".data, "7202424896".data, "2114110836".data]

/-- `line_template.format(random_id)` from `src/markdown.py` (verbatim). -/
def lineTemplate (ident : List Char) : List Char :=
  "| 极搜JiSo   | [@jiso](https://t.me/jiso?start=a_".data ++ ident ++
    ")                       | 帮你找到有趣的群、频道、视频、音乐、电影、新闻 |\n".data

/-- `replace_jiso_line` of `src/markdown.py`: replace the first line containing
both markers `极搜JiSo` and `@jiso` with the template filled with
`random.choice(ids)` (the draw is modelled by the `randomId` parameter) and stop
(`break`); all other lines, and the whole file when no line matches, are written
back unchanged. -/
def replaceJisoLine (randomId : List Char) : List (List Char) → List (List Char)
  | [] => []
  | l :: ls =>
    if searchB "极搜JiSo".data l && searchB "@jiso".data l then
      lineTemplate randomId :: ls
    else
      l :: replaceJisoLine randomId ls

/-- `MarkdownLinkUpdater._validate_config`, with the filesystem queries
`repo_path.is_dir()` and `file_path.is_file()` abstracted as booleans.
A `.error` models the raised `ValueError`. -/
def validateConfig (repoIsDir fileIsFile : Bool) (intervalMin intervalMax : Int) :
    Except String Unit :=
  if !repoIsDir then .error "仓库路径不存在"
  else if !fileIsFile then .error "文件不存在"
  else if intervalMin ≤ 0 ∨ intervalMax ≤ 0 then .error "检查间隔必须是正数"
  else if intervalMin > intervalMax then .error "最小间隔不能大于最大间隔"
  else .ok ()

/-- A Python-level computation: a normal return or a propagating exception. -/
inductive PyResult (α : Type)
  | ok (val : α)
  | exn (msg : String)
deriving DecidableEq

/-- Sequencing of Python statements: an exception propagates past the rest. -/
def pyBind {α β : Type} : PyResult α → (α → PyResult β) → PyResult β
  | .exn m, _ => .exn m
  | .ok a, f => f a

/-- Python `str.strip()`: remove leading and trailing whitespace. -/
def stripChars (s : List Char) : List Char :=
  ((s.dropWhile Char.isWhitespace).reverse.dropWhile Char.isWhitespace).reverse

/-- `subprocess.run(command, check=True, capture_output=True)`: raises
`CalledProcessError` on a non-zero exit code, otherwise returns the run with
its captured stdout. -/
def subprocessRun (exitCode : Nat) (stdout : List Char) : PyResult (List Char) :=
  if exitCode = 0 then .ok stdout else .exn "CalledProcessError"

/-- `_run_git_command`: its `except subprocess.CalledProcessError` clause prints
the error and returns the empty string, so a non-zero git exit never escapes the
runner; on success the stripped stdout is returned. -/
def runGitCommand (exitCode : Nat) (stdout : List Char) : List Char :=
  match subprocessRun exitCode stdout with
  | .ok out => stripChars out
  | .exn _ => []

/-- `_check_file_changes`: `git status --porcelain <file>` reports uncommitted
changes as non-empty output.  (Present in the source, but `run` never calls
it.) -/
def checkFileChanges (statusExit : Nat) (statusOut : List Char) : Bool :=
  !(stripChars (runGitCommand statusExit statusOut)).isEmpty

/-- `try: body / except Exception: return False`, the shape of
`_commit_changes` and `_push_to_remote`. -/
def tryOrFalse : PyResult Bool → PyResult Bool
  | .ok b => .ok b
  | .exn _ => .ok false

/-- `_commit_changes`: run `git add` then `git commit` through the swallowing
command runner, then return `True`. -/
def commitChanges (addExit commitExit : Nat) (addOut commitOut : List Char) :
    PyResult Bool :=
  tryOrFalse
    (let _ := runGitCommand addExit addOut
     let _ := runGitCommand commitExit commitOut
     .ok true)

/-- `_push_to_remote`: run `git push` through the swallowing command runner,
then return `True`. -/
def pushToRemote (pushExit : Nat) (pushOut : List Char) : PyResult Bool :=
  tryOrFalse
    (let _ := runGitCommand pushExit pushOut
     .ok true)

/-- `random.randint(lo, hi)`: the draw is determined by an abstract seed; for
`lo ≤ hi` the result lies in `[lo, hi]`. -/
def randint (lo hi : Int) (seed : Nat) : Int :=
  lo + (seed : Int) % (hi - lo + 1)

/-- The git subcommands a cycle can invoke, in invocation order. -/
inductive GitCall
  | status
  | add
  | commit
  | push
deriving DecidableEq

/-- External inputs of one loop iteration: the file content at read time, exit
codes and captured stdout of the git subprocesses, and the seed of the random
sleep draw. -/
structure CycleInput where
  content : List Char
  addExit : Nat
  commitExit : Nat
  pushExit : Nat
  addOut : List Char
  commitOut : List Char
  pushOut : List Char
  seed : Nat

/-- Observable outcome of one iteration of `run`'s `while True` body. -/
structure CycleOutput where
  newContent : List Char
  calls : List GitCall
  sleepSeconds : Int
deriving DecidableEq

/-- One iteration of `MarkdownLinkUpdater.run`'s loop body: attempt the update
directly; on success commit, and when the commit stage reports success, push;
in every case draw `random.randint(interval_min * 60, interval_max * 60)` and
sleep that many seconds. -/
def runCycle (id1 id2 : List Char) (intervalMin intervalMax : Int)
    (inp : CycleInput) : PyResult CycleOutput :=
  let wait := randint (intervalMin * 60) (intervalMax * 60) inp.seed
  match updateLinks id1 id2 inp.content with
  | .updated c2 =>
    pyBind (commitChanges inp.addExit inp.commitExit inp.addOut inp.commitOut)
      fun committed =>
        if committed then
          pyBind (pushToRemote inp.pushExit inp.pushOut) fun _ =>
            .ok ⟨c2, [.add, .commit, .push], wait⟩
        else .ok ⟨c2, [.add, .commit], wait⟩
  | _ => .ok ⟨inp.content, [], wait⟩

/-- How the infinite loop ends: `KeyboardInterrupt` or another exception; `run`
catches both and returns normally. -/
inductive RunTermination
  | interrupted
  | internalError

/-- `MarkdownLinkUpdater.run`'s termination behaviour: both exception classes
are caught, printed, and the method returns. -/
def runLoop : RunTermination → PyResult Unit
  | .interrupted => .ok ()
  | .internalError => .ok ()

/-- `main`: returns `1` when the constructor raises (configuration validation
failure, or any other startup error, modelled by `startupExn`); otherwise runs
the loop and returns `0`. -/
def mainExit (startupExn : Bool) (repoIsDir fileIsFile : Bool)
    (intervalMin intervalMax : Int) (t : RunTermination) : Nat :=
  if startupExn then 1
  else
    match validateConfig repoIsDir fileIsFile intervalMin intervalMax with
    | .error _ => 1
    | .ok _ =>
      match runLoop t with
      | .ok _ => 0
      | .exn _ => 1

/-! ### Properties of the substring search and the literal substitution -/

theorem searchB_iff (p s : List Char) : searchB p s = true ↔ p <:+: s := by
  induction s with
  | nil => simp [searchB, List.isEmpty_iff]
  | cons c cs ih => simp [searchB, ih, List.infix_cons_iff]

theorem searchB_eq_false_iff (p s : List Char) :
    searchB p s = false ↔ ¬ p <:+: s := by
  rw [← searchB_iff]
  cases searchB p s <;> simp

theorem substAux_nil (p r : List Char) (f : Nat) : substAux p r f [] = [] := by
  cases f <;> rfl

theorem substAux_congr (p r : List Char) :
    ∀ f g s, s.length ≤ f → s.length ≤ g →
      substAux p r f s = substAux p r g s := by
  intro f
  induction f with
  | zero =>
    intro g s hf _
    have hs : s = [] := List.eq_nil_of_length_eq_zero (Nat.le_zero.mp hf)
    subst hs
    rw [substAux_nil, substAux_nil]
  | succ f ih =>
    intro g s hf hg
    cases s with
    | nil => rw [substAux_nil, substAux_nil]
    | cons c cs =>
      cases g with
      | zero => simp at hg
      | succ g =>
        have hf' : cs.length ≤ f := by simp at hf; omega
        have hg' : cs.length ≤ g := by simp at hg; omega
        have hdf : (cs.drop (p.length - 1)).length ≤ f := by
          simp only [List.length_drop]; omega
        have hdg : (cs.drop (p.length - 1)).length ≤ g := by
          simp only [List.length_drop]; omega
        simp only [substAux]
        by_cases hc : (p.isPrefixOf (c :: cs) && !p.isEmpty) = true
        · rw [if_pos hc, if_pos hc, ih g _ hdf hdg]
        · rw [if_neg hc, if_neg hc, ih g cs hf' hg']

theorem subst_eq_substAux (p r s : List Char) {f : Nat} (hf : s.length ≤ f) :
    subst p r s = substAux p r f s :=
  substAux_congr p r s.length f s le_rfl hf

/-- A nonempty list whose head occurs neither as the pattern's head nor as the
replacement's head, and which is a prefix of a substitution result, is already
a prefix of the unsubstituted input (the substitution cannot manufacture it). -/
theorem prefix_through_substAux (ph rh : Char) (pt rt : List Char) :
    ∀ f cs (q : List Char), q ≠ [] → ph ∉ q → rh ∉ q →
      q <+: substAux (ph :: pt) (rh :: rt) f cs → q <+: cs := by
  intro f
  induction f with
  | zero =>
    intro cs q _ _ _ h
    simpa only [substAux] using h
  | succ f ih =>
    intro cs q hq hqp hqr h
    cases cs with
    | nil =>
      rw [substAux_nil] at h
      exact absurd (List.prefix_nil.mp h) hq
    | cons d ds =>
      simp only [substAux] at h
      by_cases hc : ((ph :: pt).isPrefixOf (d :: ds) && !(ph :: pt).isEmpty) = true
      · rw [if_pos hc] at h
        obtain ⟨q0, qs, rfl⟩ := List.exists_cons_of_ne_nil hq
        rw [List.cons_append, List.cons_prefix_cons] at h
        exact absurd (h.1 ▸ List.mem_cons_self q0 qs) hqr
      · rw [if_neg hc] at h
        obtain ⟨q0, qs, rfl⟩ := List.exists_cons_of_ne_nil hq
        rw [List.cons_prefix_cons] at h
        obtain ⟨rfl, hqs⟩ := h
        cases qs with
        | nil => exact List.cons_prefix_cons.mpr ⟨rfl, List.nil_prefix⟩
        | cons e qs2 =>
          have hrec := ih ds (e :: qs2) (List.cons_ne_nil e qs2)
            (fun hm => hqp (List.mem_cons_of_mem _ hm))
            (fun hm => hqr (List.mem_cons_of_mem _ hm)) hqs
          exact List.cons_prefix_cons.mpr ⟨rfl, hrec⟩

/-- After substituting every occurrence of the pattern `ph :: pt` by the
replacement `rh :: rt`, the pattern no longer occurs anywhere (stated via
`drop`), provided the pattern's head reappears in neither tail and the pattern
diverges from the replacement before the replacement ends. -/
theorem pattern_not_prefix_substAux_drop (ph rh : Char) (pt rt : List Char)
    (hpp : ph ∉ pt) (hpr : ph ∉ rt) (hrp : rh ∉ pt)
    (hdiv : ∀ t, ¬ (ph :: pt) <+: (rh :: rt) ++ t) :
    ∀ f s, s.length ≤ f → ∀ i,
      ¬ (ph :: pt) <+: (substAux (ph :: pt) (rh :: rt) f s).drop i := by
  intro f
  induction f with
  | zero =>
    intro s hf i h
    have hs : s = [] := List.eq_nil_of_length_eq_zero (Nat.le_zero.mp hf)
    subst hs
    rw [substAux_nil, List.drop_nil] at h
    exact List.cons_ne_nil ph pt (List.prefix_nil.mp h)
  | succ f ih =>
    intro s hf i h
    cases s with
    | nil =>
      rw [substAux_nil, List.drop_nil] at h
      exact List.cons_ne_nil ph pt (List.prefix_nil.mp h)
    | cons c cs =>
      have hf' : cs.length ≤ f := by simp at hf; omega
      simp only [substAux] at h
      by_cases hc : ((ph :: pt).isPrefixOf (c :: cs) && !(ph :: pt).isEmpty) = true
      · rw [if_pos hc] at h
        have hXlen : (cs.drop ((ph :: pt).length - 1)).length ≤ f := by
          simp only [List.length_drop]; omega
        by_cases hir : i < (rh :: rt).length
        · rw [List.drop_append_of_le_length (Nat.le_of_lt hir)] at h
          cases i with
          | zero =>
            rw [List.drop_zero] at h
            exact hdiv _ h
          | succ j =>
            rw [List.drop_eq_getElem_cons hir, List.getElem_cons_succ,
              List.cons_append, List.cons_prefix_cons] at h
            exact hpr (h.1 ▸ List.getElem_mem _)
        · obtain ⟨j, rfl⟩ := Nat.exists_eq_add_of_le (Nat.le_of_not_lt hir)
          rw [List.drop_append] at h
          exact ih _ hXlen j h
      · rw [if_neg hc] at h
        cases i with
        | zero =>
          rw [List.drop_zero, List.cons_prefix_cons] at h
          obtain ⟨rfl, hpt⟩ := h
          have hptcs : pt <+: cs := by
            by_cases hq : pt = []
            · rw [hq]; exact List.nil_prefix
            · exact prefix_through_substAux ph rh pt rt f cs pt hq hpp hrp hpt
          exact hc (by simp; exact hptcs)
        | succ j =>
          rw [List.drop_succ_cons] at h
          exact ih cs hf' j h

/-- The pattern does not occur in the result of the substitution. -/
theorem pattern_not_infix_subst (ph rh : Char) (pt rt : List Char)
    (hpp : ph ∉ pt) (hpr : ph ∉ rt) (hrp : rh ∉ pt)
    (hdiv : ∀ t, ¬ (ph :: pt) <+: (rh :: rt) ++ t) (s : List Char) :
    ¬ (ph :: pt) <:+: subst (ph :: pt) (rh :: rt) s := by
  intro h
  obtain ⟨u, v, huv⟩ := h
  have hd : (ph :: pt) <+: (subst (ph :: pt) (rh :: rt) s).drop u.length := by
    rw [← huv, List.append_assoc, List.drop_left]
    exact List.prefix_append _ v
  exact pattern_not_prefix_substAux_drop ph rh pt rt hpp hpr hrp hdiv
    s.length s le_rfl u.length hd

/-- When the pattern occurs in the input, the replacement occurs in the
substitution result (at least one replacement actually happens). -/
theorem repl_infix_substAux (p r : List Char) (hne : p ≠ []) :
    ∀ f s, s.length ≤ f → p <:+: s → r <:+: substAux p r f s := by
  intro f
  induction f with
  | zero =>
    intro s hf hs
    have h0 : s = [] := List.eq_nil_of_length_eq_zero (Nat.le_zero.mp hf)
    subst h0
    exact absurd (List.infix_nil.mp hs) hne
  | succ f ih =>
    intro s hf hs
    cases s with
    | nil => exact absurd (List.infix_nil.mp hs) hne
    | cons c cs =>
      have hf' : cs.length ≤ f := by simp at hf; omega
      simp only [substAux]
      by_cases hc : (p.isPrefixOf (c :: cs) && !p.isEmpty) = true
      · rw [if_pos hc]
        exact (List.prefix_append r _).isInfix
      · rw [if_neg hc]
        rcases List.infix_cons_iff.mp hs with hpre | hinf
        · exact absurd (by simp [hne]; exact hpre) hc
        · exact List.infix_cons (ih cs hf' hinf)

/-- Substituting pattern₁ by pattern₂ and then pattern₂ by pattern₁ restores
the input, provided the two patterns share their head character, that character
does not reappear inside pattern₂'s tail, and pattern₂ did not occur in the
input. -/
theorem substAux_roundtrip (ph : Char) (p1t p2t : List Char) (hA : ph ∉ p2t) :
    ∀ f1 f2 s, s.length ≤ f1 →
      (substAux (ph :: p1t) (ph :: p2t) f1 s).length ≤ f2 →
      ¬ (ph :: p2t) <:+: s →
      substAux (ph :: p2t) (ph :: p1t) f2 (substAux (ph :: p1t) (ph :: p2t) f1 s)
        = s := by
  intro f1
  induction f1 with
  | zero =>
    intro f2 s hf1 _ _
    have hs : s = [] := List.eq_nil_of_length_eq_zero (Nat.le_zero.mp hf1)
    subst hs
    rw [substAux_nil, substAux_nil]
  | succ f1 ih =>
    intro f2 s hf1 hf2 hs
    cases s with
    | nil => rw [substAux_nil, substAux_nil]
    | cons c cs =>
      have hf1' : cs.length ≤ f1 := by simp at hf1; omega
      by_cases hc : ((ph :: p1t).isPrefixOf (c :: cs) && !(ph :: p1t).isEmpty) = true
      · have hinner : substAux (ph :: p1t) (ph :: p2t) (f1+1) (c :: cs)
            = (ph :: p2t) ++ substAux (ph :: p1t) (ph :: p2t) f1
                (cs.drop p1t.length) := by
          simp only [substAux]
          rw [if_pos hc]
          simp only [List.length_cons, Nat.add_sub_cancel]
        rw [hinner] at hf2 ⊢
        cases f2 with
        | zero => simp at hf2
        | succ f2 =>
          rw [List.cons_append]
          have hcond2 : ((ph :: p2t).isPrefixOf
              (ph :: (p2t ++ substAux (ph :: p1t) (ph :: p2t) f1
                (cs.drop p1t.length))) && !(ph :: p2t).isEmpty)
              = true := by
            simp
          have houter : substAux (ph :: p2t) (ph :: p1t) (f2+1)
              (ph :: (p2t ++ substAux (ph :: p1t) (ph :: p2t) f1
                (cs.drop p1t.length)))
              = (ph :: p1t) ++ substAux (ph :: p2t) (ph :: p1t) f2
                  (substAux (ph :: p1t) (ph :: p2t) f1 (cs.drop p1t.length)) := by
            simp only [substAux]
            rw [if_pos hcond2]
            simp only [List.length_cons, Nat.add_sub_cancel, List.drop_left]
          rw [houter]
          have hXf2 : (substAux (ph :: p1t) (ph :: p2t) f1
              (cs.drop p1t.length)).length ≤ f2 := by
            simp [List.length_append] at hf2
            omega
          have hs'f1 : (cs.drop p1t.length).length ≤ f1 := by
            simp only [List.length_drop]
            omega
          have hs'inf : ¬ (ph :: p2t) <:+: cs.drop p1t.length := by
            intro hcon
            exact hs (hcon.trans
              (((List.drop_suffix _ cs).trans (List.suffix_cons c cs)).isInfix))
          rw [ih f2 _ hs'f1 hXf2 hs'inf]
          have hpre : (ph :: p1t) <+: c :: cs := by
            simp at hc
            exact List.cons_prefix_cons.mpr hc
          obtain ⟨t, ht⟩ := hpre
          have ht' : t = cs.drop p1t.length := by
            have hdt := congrArg (List.drop (ph :: p1t).length) ht
            rw [List.drop_left] at hdt
            rw [hdt]
            simp only [List.length_cons, List.drop_succ_cons]
          rw [← ht', ht]
      · have hinner : substAux (ph :: p1t) (ph :: p2t) (f1+1) (c :: cs)
            = c :: substAux (ph :: p1t) (ph :: p2t) f1 cs := by
          simp only [substAux]
          rw [if_neg hc]
        rw [hinner] at hf2 ⊢
        cases f2 with
        | zero => simp at hf2
        | succ f2 =>
          have hcond2 : ¬ ((ph :: p2t).isPrefixOf
              (c :: substAux (ph :: p1t) (ph :: p2t) f1 cs)
                && !(ph :: p2t).isEmpty) = true := by
            intro hcon
            simp at hcon
            obtain ⟨rfl, hcon2⟩ := hcon
            have hB : p2t <+: cs := by
              by_cases hq : p2t = []
              · rw [hq]; exact List.nil_prefix
              · exact prefix_through_substAux ph ph p1t p2t f1 cs p2t hq hA hA hcon2
            exact hs ((List.cons_prefix_cons.mpr ⟨rfl, hB⟩).isInfix)
          have houter : substAux (ph :: p2t) (ph :: p1t) (f2+1)
              (c :: substAux (ph :: p1t) (ph :: p2t) f1 cs)
              = c :: substAux (ph :: p2t) (ph :: p1t) f2
                  (substAux (ph :: p1t) (ph :: p2t) f1 cs) := by
            simp only [substAux]
            rw [if_neg hcond2]
          rw [houter]
          have hXf2 : (substAux (ph :: p1t) (ph :: p2t) f1 cs).length ≤ f2 := by
            simp at hf2
            omega
          rw [ih f2 cs hf1' hXf2 (fun hcon => hs (List.infix_cons hcon))]

/-! ### Instantiation for the URL patterns of `_update_links` -/

theorem urlOf_cons (ident : List Char) :
    urlOf ident = 'h' :: (urlRest ++ ident) := rfl

theorem urlOf_ne_nil (ident : List Char) : urlOf ident ≠ [] := by
  rw [urlOf_cons]
  exact List.cons_ne_nil _ _

theorem hChar_not_mem_of_digits (l : List Char) (h : ∀ c ∈ l, c.isDigit) :
    'h' ∉ l := fun hm => absurd (h 'h' hm) (by decide)

theorem hChar_not_mem_urlRest_append (ident : List Char)
    (h : ∀ c ∈ ident, c.isDigit) : 'h' ∉ urlRest ++ ident := by
  rw [List.mem_append]
  rintro (hm | hm)
  · exact absurd hm (by decide)
  · exact hChar_not_mem_of_digits ident h hm

/-- When neither identifier is a prefix of the other, the old pattern diverges
from the new pattern before the new pattern ends. -/
theorem urlOf_not_prefix_append (id1 id2 : List Char)
    (h12 : ¬ id1 <+: id2) (h21 : ¬ id2 <+: id1) :
    ∀ t, ¬ urlOf id1 <+: urlOf id2 ++ t := by
  intro t h
  rw [urlOf, urlOf, List.append_assoc, List.prefix_append_right_inj] at h
  rcases Nat.le_total id1.length id2.length with hle | hle
  · exact h12 (List.prefix_of_prefix_length_le h (List.prefix_append id2 t) hle)
  · exact h21 (List.prefix_of_prefix_length_le (List.prefix_append id2 t) h hle)

theorem subst_urlOf_no_old (id1 id2 content : List Char)
    (hd1 : ∀ c ∈ id1, c.isDigit) (hd2 : ∀ c ∈ id2, c.isDigit)
    (h12 : ¬ id1 <+: id2) (h21 : ¬ id2 <+: id1) :
    ¬ urlOf id1 <:+: subst (urlOf id1) (urlOf id2) content := by
  have hda := hChar_not_mem_urlRest_append id1 hd1
  have hdb := hChar_not_mem_urlRest_append id2 hd2
  have hdiv : ∀ t, ¬ ('h' :: (urlRest ++ id1)) <+: ('h' :: (urlRest ++ id2)) ++ t := by
    intro t
    rw [← urlOf_cons, ← urlOf_cons]
    exact urlOf_not_prefix_append id1 id2 h12 h21 t
  rw [urlOf_cons id1, urlOf_cons id2]
  exact pattern_not_infix_subst 'h' 'h' (urlRest ++ id1) (urlRest ++ id2)
    hda hdb hda hdiv content

theorem subst_urlOf_has_new (id1 id2 content : List Char)
    (h : urlOf id1 <:+: content) :
    urlOf id2 <:+: subst (urlOf id1) (urlOf id2) content :=
  repl_infix_substAux (urlOf id1) (urlOf id2) (urlOf_ne_nil id1)
    content.length content le_rfl h

theorem subst_urlOf_roundtrip (id1 id2 content : List Char)
    (hd2 : ∀ c ∈ id2, c.isDigit)
    (hs : ¬ urlOf id2 <:+: content) :
    subst (urlOf id2) (urlOf id1) (subst (urlOf id1) (urlOf id2) content)
      = content := by
  have hA := hChar_not_mem_urlRest_append id2 hd2
  rw [urlOf_cons id2] at hs
  rw [urlOf_cons id1, urlOf_cons id2]
  exact substAux_roundtrip 'h' (urlRest ++ id1) (urlRest ++ id2) hA
    content.length _ content le_rfl le_rfl hs

/-! ### Classification of `_update_links` -/

theorem updateLinks_both (id1 id2 content : List Char)
    (h1 : urlOf id1 <:+: content) (h2 : urlOf id2 <:+: content) :
    updateLinks id1 id2 content = .ambiguous := by
  have b1 := (searchB_iff (urlOf id1) content).mpr h1
  have b2 := (searchB_iff (urlOf id2) content).mpr h2
  simp [updateLinks, b1, b2]

theorem updateLinks_first (id1 id2 content : List Char)
    (h1 : urlOf id1 <:+: content) (h2 : ¬ urlOf id2 <:+: content) :
    updateLinks id1 id2 content
      = .updated (subst (urlOf id1) (urlOf id2) content) := by
  have b1 := (searchB_iff (urlOf id1) content).mpr h1
  have b2 := (searchB_eq_false_iff (urlOf id2) content).mpr h2
  simp [updateLinks, b1, b2]

theorem updateLinks_second (id1 id2 content : List Char)
    (h1 : ¬ urlOf id1 <:+: content) (h2 : urlOf id2 <:+: content) :
    updateLinks id1 id2 content
      = .updated (subst (urlOf id2) (urlOf id1) content) := by
  have b1 := (searchB_eq_false_iff (urlOf id1) content).mpr h1
  have b2 := (searchB_iff (urlOf id2) content).mpr h2
  simp [updateLinks, b1, b2]

theorem updateLinks_none (id1 id2 content : List Char)
    (h1 : ¬ urlOf id1 <:+: content) (h2 : ¬ urlOf id2 <:+: content) :
    updateLinks id1 id2 content = .notFound := by
  have b1 := (searchB_eq_false_iff (urlOf id1) content).mpr h1
  have b2 := (searchB_eq_false_iff (urlOf id2) content).mpr h2
  simp [updateLinks, b1, b2]

theorem stepContent_eq_of_updated (id1 id2 content c2 : List Char)
    (h : updateLinks id1 id2 content = .updated c2) :
    stepContent id1 id2 content = c2 := by
  simp [stepContent, h]

/-- C4: configuration validation succeeds exactly for an existing working-tree
directory, an existing target file, a positive minimum interval, and ordered
intervals; in particular `interval_min = 0`, `interval_min > interval_max`, a
missing working tree, and a missing target file are each rejected before the
loop is entered. -/
theorem validateConfig_ok_iff (d f : Bool) (mn mx : Int) :
    validateConfig d f mn mx = .ok () ↔
      d = true ∧ f = true ∧ 0 < mn ∧ mn ≤ mx := by
  unfold validateConfig
  split_ifs with h1 h2 h3 h4
  all_goals simp_all
  all_goals omega

/-- C7: the exit code is `0` exactly when startup succeeds (whatever ends the
loop — interruption or an internal error — is caught), and `1` exactly when
configuration validation fails or another startup error is raised. -/
theorem mainExit_spec (s d f : Bool) (mn mx : Int) (t : RunTermination) :
    (mainExit s d f mn mx t = 0 ↔
      s = false ∧ validateConfig d f mn mx = .ok ()) ∧
    (mainExit s d f mn mx t = 1 ↔
      (s = true ∨ validateConfig d f mn mx ≠ .ok ())) := by
  cases s <;> cases t <;>
    cases h : validateConfig d f mn mx <;>
    simp_all [mainExit, runLoop]

/-! ### Claims about the rotation itself -/

/-- C2 (confirmed): when the URL forms of both configured identifiers are
simultaneously present, `_update_links` performs no write (the content is
unchanged) and signals the ambiguity condition, returning failure for the
cycle. -/
theorem claim_ambiguous_no_write (id1 id2 content : List Char)
    (h1 : urlOf id1 <:+: content) (h2 : urlOf id2 <:+: content) :
    updateLinks id1 id2 content = .ambiguous ∧
      stepContent id1 id2 content = content := by
  have hu := updateLinks_both id1 id2 content h1 h2
  exact ⟨hu, by simp [stepContent, hu]⟩

theorem claim_ambiguous_no_write_witness :
    updateLinks "11".data "22".data
        (urlOf "11".data ++ urlOf "22".data) = .ambiguous ∧
      stepContent "11".data "22".data (urlOf "11".data ++ urlOf "22".data)
        = urlOf "11".data ++ urlOf "22".data :=
  claim_ambiguous_no_write "11".data "22".data
    (urlOf "11".data ++ urlOf "22".data) (by decide) (by decide)

/-- C3 (amended): for the loop updater `_update_links`, content containing
neither configured identifier's URL form is not written and the not-found
condition is signalled (the cycle returns failure); the standalone
`replace_jiso_line`, by contrast, rewrites its marker line regardless of which
identifier it carries and reports nothing. -/
theorem claim_notfound_no_write (id1 id2 content : List Char)
    (h1 : ¬ urlOf id1 <:+: content) (h2 : ¬ urlOf id2 <:+: content) :
    updateLinks id1 id2 content = .notFound ∧
      stepContent id1 id2 content = content := by
  have hu := updateLinks_none id1 id2 content h1 h2
  exact ⟨hu, by simp [stepContent, hu]⟩

theorem claim_notfound_no_write_witness :
    updateLinks "11".data "22".data "hello world".data = .notFound ∧
      stepContent "11".data "22".data "hello world".data = "hello world".data :=
  claim_notfound_no_write "11".data "22".data "hello world".data
    (by decide) (by decide)

/-- C3 (counterexample): `replace_jiso_line` rewrites the marker line even when
none of its four configured identifiers' URL forms occurs in the file: on a
file whose only line embeds the unconfigured identifier `9999`, a write occurs
and the content changes, and no failure is signalled (the function returns
nothing). -/
theorem claim_notfound_cex :
    (¬ urlOf "7737195905".data <:+: lineTemplate "9999".data) ∧
    (¬ urlOf "7439567495".data <:+: lineTemplate "9999".data) ∧
    (¬ urlOf "7202424896".data <:+: lineTemplate "9999".data) ∧
    (¬ urlOf "2114110836".data <:+: lineTemplate "9999".data) ∧
    "7737195905".data ∈ jisoIds ∧
    replaceJisoLine "7737195905".data [lineTemplate "9999".data]
      = [lineTemplate "7737195905".data] ∧
    lineTemplate "7737195905".data ≠ lineTemplate "9999".data := by
  decide

/-- C1 (counterexample): with the two-identifier set `{12, 123}` and content
equal to the URL form of `12` (exactly one configured identifier present), one
rotation yields the URL form of `123`, in which the original identifier's URL
form still occurs; and the four-identifier standalone script can draw the
identifier already present, leaving the original URL form in place. -/
theorem claim_rotation_cex :
    (urlOf "12".data <:+: urlOf "12".data) ∧
    (¬ urlOf "123".data <:+: urlOf "12".data) ∧
    updateLinks "12".data "123".data (urlOf "12".data)
      = .updated (urlOf "123".data) ∧
    (urlOf "12".data <:+: urlOf "123".data) ∧
    "7737195905".data ∈ jisoIds ∧
    (urlOf "7737195905".data <:+: lineTemplate "7737195905".data) ∧
    (¬ urlOf "7439567495".data <:+: lineTemplate "7737195905".data) ∧
    (¬ urlOf "7202424896".data <:+: lineTemplate "7737195905".data) ∧
    (¬ urlOf "2114110836".data <:+: lineTemplate "7737195905".data) ∧
    replaceJisoLine "7737195905".data [lineTemplate "7737195905".data]
      = [lineTemplate "7737195905".data] := by
  decide

/-- C1 (amended): for the loop's two-identifier rotation with numeric
identifiers neither of which is a prefix of the other, if the content contains
the URL form of exactly one of them, `_update_links` writes the content with
every occurrence of that URL form replaced by the other identifier's URL form;
the new identifier's URL form occurs in the result and the original
identifier's URL form no longer occurs anywhere in it. -/
theorem claim_rotation_amended (id1 id2 content : List Char)
    (hd1 : ∀ c ∈ id1, c.isDigit) (hd2 : ∀ c ∈ id2, c.isDigit)
    (h12 : ¬ id1 <+: id2) (h21 : ¬ id2 <+: id1)
    (hone : (urlOf id1 <:+: content ∧ ¬ urlOf id2 <:+: content) ∨
            (urlOf id2 <:+: content ∧ ¬ urlOf id1 <:+: content)) :
    ∃ pOld pNew : List Char,
      ((pOld = urlOf id1 ∧ pNew = urlOf id2) ∨
       (pOld = urlOf id2 ∧ pNew = urlOf id1)) ∧
      pOld <:+: content ∧
      updateLinks id1 id2 content = .updated (subst pOld pNew content) ∧
      pNew <:+: subst pOld pNew content ∧
      ¬ pOld <:+: subst pOld pNew content := by
  rcases hone with ⟨hin, hout⟩ | ⟨hin, hout⟩
  · exact ⟨urlOf id1, urlOf id2, Or.inl ⟨rfl, rfl⟩, hin,
      updateLinks_first id1 id2 content hin hout,
      subst_urlOf_has_new id1 id2 content hin,
      subst_urlOf_no_old id1 id2 content hd1 hd2 h12 h21⟩
  · exact ⟨urlOf id2, urlOf id1, Or.inr ⟨rfl, rfl⟩, hin,
      updateLinks_second id1 id2 content hout hin,
      subst_urlOf_has_new id2 id1 content hin,
      subst_urlOf_no_old id2 id1 content hd2 hd1 h21 h12⟩

theorem claim_rotation_amended_witness :
    ∃ pOld pNew : List Char,
      ((pOld = urlOf "1111111111".data ∧ pNew = urlOf "2222222222".data) ∨
       (pOld = urlOf "2222222222".data ∧ pNew = urlOf "1111111111".data)) ∧
      pOld <:+: ("see ".data ++ urlOf "1111111111".data ++ " end".data) ∧
      updateLinks "1111111111".data "2222222222".data
          ("see ".data ++ urlOf "1111111111".data ++ " end".data)
        = .updated (subst pOld pNew
            ("see ".data ++ urlOf "1111111111".data ++ " end".data)) ∧
      pNew <:+: subst pOld pNew
        ("see ".data ++ urlOf "1111111111".data ++ " end".data) ∧
      ¬ pOld <:+: subst pOld pNew
        ("see ".data ++ urlOf "1111111111".data ++ " end".data) :=
  claim_rotation_amended "1111111111".data "2222222222".data
    ("see ".data ++ urlOf "1111111111".data ++ " end".data)
    (by decide) (by decide) (by decide) (by decide)
    (Or.inl ⟨by decide, by decide⟩)

/-- C10 (counterexample): with identifiers `1` and `12` (one a prefix of the
other) and content equal to the URL form of `1` — which contains exactly one of
the two configured identifiers — the first update writes the URL form of `12`,
the second update sees both identifiers (ambiguous) and changes nothing, so
applying the step twice does not restore the original content. -/
theorem claim_involution_cex :
    (urlOf "1".data <:+: urlOf "1".data) ∧
    (¬ urlOf "12".data <:+: urlOf "1".data) ∧
    stepContent "1".data "12".data (urlOf "1".data) = urlOf "12".data ∧
    updateLinks "1".data "12".data (urlOf "12".data) = .ambiguous ∧
    stepContent "1".data "12".data
        (stepContent "1".data "12".data (urlOf "1".data))
      ≠ urlOf "1".data := by
  decide

/-- C10 (amended): for numeric identifiers neither of which is a prefix of the
other, the update step is an involution on contents containing the URL form of
exactly one of the two identifiers: applying it twice restores the original
content. -/
theorem claim_involution_amended (id1 id2 content : List Char)
    (hd1 : ∀ c ∈ id1, c.isDigit) (hd2 : ∀ c ∈ id2, c.isDigit)
    (h12 : ¬ id1 <+: id2) (h21 : ¬ id2 <+: id1)
    (hone : (urlOf id1 <:+: content ∧ ¬ urlOf id2 <:+: content) ∨
            (urlOf id2 <:+: content ∧ ¬ urlOf id1 <:+: content)) :
    stepContent id1 id2 (stepContent id1 id2 content) = content := by
  rcases hone with ⟨hin, hout⟩ | ⟨hin, hout⟩
  · have h1 := stepContent_eq_of_updated id1 id2 content _
      (updateLinks_first id1 id2 content hin hout)
    rw [h1]
    have hno := subst_urlOf_no_old id1 id2 content hd1 hd2 h12 h21
    have hnew := subst_urlOf_has_new id1 id2 content hin
    have h2 := stepContent_eq_of_updated id1 id2 _ _
      (updateLinks_second id1 id2 _ hno hnew)
    rw [h2]
    exact subst_urlOf_roundtrip id1 id2 content hd2 hout
  · have h1 := stepContent_eq_of_updated id1 id2 content _
      (updateLinks_second id1 id2 content hout hin)
    rw [h1]
    have hno := subst_urlOf_no_old id2 id1 content hd2 hd1 h21 h12
    have hnew := subst_urlOf_has_new id2 id1 content hin
    have h2 := stepContent_eq_of_updated id1 id2 _ _
      (updateLinks_first id1 id2 _ hnew hno)
    rw [h2]
    exact subst_urlOf_roundtrip id2 id1 content hd1 hout

theorem claim_involution_amended_witness :
    stepContent "31".data "57".data
        (stepContent "31".data "57".data
          ("x".data ++ urlOf "31".data ++ "y".data))
      = "x".data ++ urlOf "31".data ++ "y".data :=
  claim_involution_amended "31".data "57".data
    ("x".data ++ urlOf "31".data ++ "y".data)
    (by decide) (by decide) (by decide) (by decide)
    (Or.inl ⟨by decide, by decide⟩)

/-! ### Claims about the loop cycle -/

theorem commitChanges_eq (a c : Nat) (ao co : List Char) :
    commitChanges a c ao co = .ok true := rfl

theorem pushToRemote_eq (p : Nat) (po : List Char) :
    pushToRemote p po = .ok true := rfl

theorem runCycle_eq_updated (id1 id2 : List Char) (mn mx : Int)
    (inp : CycleInput) (c2 : List Char)
    (h : updateLinks id1 id2 inp.content = .updated c2) :
    runCycle id1 id2 mn mx inp
      = .ok ⟨c2, [.add, .commit, .push],
             randint (mn * 60) (mx * 60) inp.seed⟩ := by
  simp [runCycle, h, commitChanges, pushToRemote, tryOrFalse, pyBind]

theorem runCycle_eq_skip (id1 id2 : List Char) (mn mx : Int) (inp : CycleInput)
    (h : updateLinks id1 id2 inp.content = .ambiguous ∨
         updateLinks id1 id2 inp.content = .notFound) :
    runCycle id1 id2 mn mx inp
      = .ok ⟨inp.content, [], randint (mn * 60) (mx * 60) inp.seed⟩ := by
  rcases h with h | h <;> simp [runCycle, h]

theorem randint_mem (lo hi : Int) (seed : Nat) (h : lo ≤ hi) :
    lo ≤ randint lo hi seed ∧ randint lo hi seed ≤ hi := by
  have hne : hi - lo + 1 ≠ 0 := by omega
  have hpos : (0 : Int) < hi - lo + 1 := by omega
  have h1 : 0 ≤ (seed : Int) % (hi - lo + 1) := Int.emod_nonneg _ hne
  have h2 : (seed : Int) % (hi - lo + 1) < hi - lo + 1 :=
    Int.emod_lt_of_pos _ hpos
  unfold randint
  omega

/-- C5 (confirmed): when the push exits non-zero, the `CalledProcessError` is
swallowed inside the command runner, so the push stage returns without raising,
the cycle completes normally, and the loop proceeds to draw the next sleep
interval. -/
theorem claim_push_failure_contained (id1 id2 : List Char) (mn mx : Int)
    (inp : CycleInput) (_hpush : inp.pushExit ≠ 0) :
    pushToRemote inp.pushExit inp.pushOut = .ok true ∧
    ∃ out : CycleOutput, runCycle id1 id2 mn mx inp = .ok out ∧
      out.sleepSeconds = randint (mn * 60) (mx * 60) inp.seed := by
  refine ⟨pushToRemote_eq _ _, ?_⟩
  cases h : updateLinks id1 id2 inp.content with
  | updated c2 => exact ⟨_, runCycle_eq_updated id1 id2 mn mx inp c2 h, rfl⟩
  | ambiguous => exact ⟨_, runCycle_eq_skip id1 id2 mn mx inp (Or.inl h), rfl⟩
  | notFound => exact ⟨_, runCycle_eq_skip id1 id2 mn mx inp (Or.inr h), rfl⟩

theorem claim_push_failure_contained_witness :
    pushToRemote 1 [] = .ok true ∧
    ∃ out : CycleOutput,
      runCycle "11".data "22".data 60 120
          ⟨urlOf "11".data, 0, 0, 1, [], [], [], 5⟩ = .ok out ∧
      out.sleepSeconds = randint (60 * 60) (120 * 60) 5 :=
  claim_push_failure_contained "11".data "22".data 60 120
    ⟨urlOf "11".data, 0, 0, 1, [], [], [], 5⟩ (by decide)

/-- C9 (confirmed): the commit stage reports success for every exit outcome of
the `git add` and `git commit` subprocesses — non-zero exits are swallowed by
the command runner — so after every successful rotation the push stage is
invoked even when staging or committing failed. -/
theorem claim_commit_always_ok (id1 id2 : List Char) (mn mx : Int)
    (inp : CycleInput) (c2 : List Char)
    (hupd : updateLinks id1 id2 inp.content = .updated c2) :
    commitChanges inp.addExit inp.commitExit inp.addOut inp.commitOut
      = .ok true ∧
    ∃ out : CycleOutput, runCycle id1 id2 mn mx inp = .ok out ∧
      GitCall.push ∈ out.calls := by
  refine ⟨commitChanges_eq _ _ _ _,
    ⟨_, runCycle_eq_updated id1 id2 mn mx inp c2 hupd, ?_⟩⟩
  simp

theorem claim_commit_always_ok_witness :
    commitChanges 1 1 [] [] = .ok true ∧
    ∃ out : CycleOutput,
      runCycle "11".data "22".data 60 120
          ⟨urlOf "11".data, 1, 1, 0, [], [], [], 0⟩ = .ok out ∧
      GitCall.push ∈ out.calls :=
  claim_commit_always_ok "11".data "22".data 60 120
    ⟨urlOf "11".data, 1, 1, 0, [], [], [], 0⟩ (urlOf "22".data) (by decide)

/-- C8 (confirmed): every cycle — update succeeded or not — ends by drawing a
sleep duration `randint(interval_min*60, interval_max*60)`, which lies between
`interval_min * 60` and `interval_max * 60` seconds whenever the configured
bounds are ordered. -/
theorem claim_sleep_every_cycle (id1 id2 : List Char) (mn mx : Int)
    (inp : CycleInput) (h : mn ≤ mx) :
    ∃ out : CycleOutput, runCycle id1 id2 mn mx inp = .ok out ∧
      out.sleepSeconds = randint (mn * 60) (mx * 60) inp.seed ∧
      mn * 60 ≤ out.sleepSeconds ∧ out.sleepSeconds ≤ mx * 60 := by
  have hb := randint_mem (mn * 60) (mx * 60) inp.seed (by omega)
  cases hu : updateLinks id1 id2 inp.content with
  | updated c2 =>
    exact ⟨_, runCycle_eq_updated id1 id2 mn mx inp c2 hu, rfl, hb.1, hb.2⟩
  | ambiguous =>
    exact ⟨_, runCycle_eq_skip id1 id2 mn mx inp (Or.inl hu), rfl, hb.1, hb.2⟩
  | notFound =>
    exact ⟨_, runCycle_eq_skip id1 id2 mn mx inp (Or.inr hu), rfl, hb.1, hb.2⟩

theorem claim_sleep_every_cycle_witness :
    ∃ out : CycleOutput,
      runCycle "11".data "22".data 60 120
          ⟨"no links here".data, 0, 0, 0, [], [], [], 7⟩ = .ok out ∧
      out.sleepSeconds = randint (60 * 60) (120 * 60) 7 ∧
      60 * 60 ≤ out.sleepSeconds ∧ out.sleepSeconds ≤ 120 * 60 :=
  claim_sleep_every_cycle "11".data "22".data 60 120
    ⟨"no links here".data, 0, 0, 0, [], [], [], 7⟩ (by decide)

/-- C6 (amended): no cycle performs the "changes already present" pre-check:
the status-query helper `_check_file_changes` exists in the source but `run`
never invokes it, and every cycle's git-call trace is free of status queries —
each cycle proceeds directly to reading and rewriting the file. -/
theorem claim_no_precheck_amended (id1 id2 : List Char) (mn mx : Int)
    (inp : CycleInput) (out : CycleOutput)
    (h : runCycle id1 id2 mn mx inp = .ok out) :
    GitCall.status ∉ out.calls := by
  cases hu : updateLinks id1 id2 inp.content with
  | updated c2 =>
    rw [runCycle_eq_updated id1 id2 mn mx inp c2 hu] at h
    injection h with h2
    subst h2
    simp
  | ambiguous =>
    rw [runCycle_eq_skip id1 id2 mn mx inp (Or.inl hu)] at h
    injection h with h2
    subst h2
    simp
  | notFound =>
    rw [runCycle_eq_skip id1 id2 mn mx inp (Or.inr hu)] at h
    injection h with h2
    subst h2
    simp

theorem claim_no_precheck_amended_witness :
    GitCall.status ∉ (⟨urlOf "22".data,
        [GitCall.add, GitCall.commit, GitCall.push], 120⟩ : CycleOutput).calls :=
  claim_no_precheck_amended "11".data "22".data 2 2
    ⟨urlOf "11".data, 0, 0, 0, [], [], [], 0⟩
    ⟨urlOf "22".data, [GitCall.add, GitCall.commit, GitCall.push], 120⟩
    (by decide)

/-- C6 (counterexample): a concrete cycle that reads the file and rewrites it
issues only `git add`, `git commit`, `git push` — no version-control status
query is made before (or after) the check and the write. -/
theorem claim_no_precheck_cex :
    runCycle "1".data "2".data 1 2 ⟨urlOf "1".data, 0, 0, 0, [], [], [], 0⟩
      = .ok ⟨urlOf "2".data, [.add, .commit, .push], 60⟩ ∧
    GitCall.status ∉ [GitCall.add, GitCall.commit, GitCall.push] := by
  decide

end TelegramGroup
